import Mathlib

/-!
# Verification of the organic synthesis route designer

A shallow embedding of `src/organic_route_designer.py`: the rule-graph data
model (`Reaction`, `Designer`), the memoized AND/OR minimum-cost search
(`_best_cost`, embedded as `bestCost`/`best_cost`), the step extraction
(`_collect_steps`, embedded as `collectSteps`/`collect_steps`), the public
entry point (`design_route`) and the ranking utility (`demo_targets`).

The Python recursion carries the active ancestor chain (`stack`) and is
guarded by the cycle check `target in stack`, which bounds the recursion
depth.  The embedding makes the recursion structural on an explicit fuel
argument and proves that any fuel exceeding the number of distinct rule
products outside the stack gives the same (fuel-independent) result; the
wrappers `best_cost` and `collect_steps` instantiate the fuel with a bound
that is provably sufficient, so they satisfy exactly the defining equations
of the Python functions.
-/

namespace RouteDesigner

/-- The sentinel `10**9` that `_best_cost` uses for an unreachable compound. -/
def INF : Nat := 10 ^ 9

/-- The frozen dataclass `Reaction(reactants, product, condition, reaction_type)`.
Equality is componentwise, as for a frozen Python dataclass. -/
structure Reaction where
  reactants : List String
  product : String
  condition : String
  reaction_type : String
deriving DecidableEq

/-- The state an `OrganicRouteDesigner` holds after `__init__`:
`compounds` is the sequence of `(cid, name)` pairs in `_add_compound`
registration order, `starting_materials` the starting-material set (only
membership is ever used), and `reactions` the rule list in `_add_reaction`
registration order. -/
structure Designer where
  compounds : List (String × String)
  starting_materials : List String
  reactions : List Reaction

/-- Python `d[k] = v` on a dict rendered as an association list: an existing
key keeps its position and gets the new value, a new key is appended. -/
def dinsert (d : List (String × String)) (k v : String) : List (String × String) :=
  if d.any (fun p => decide (p.1 = k)) then
    d.map (fun p => if p.1 = k then (k, v) else p)
  else d ++ [(k, v)]

/-- Python `d.get(k)` on the association-list rendering of a dict. -/
def dlookup (d : List (String × String)) (k : String) : Option String :=
  (d.find? (fun p => decide (p.1 = k))).map (fun p => p.2)

/-- The dict `id_to_name` built by the `_add_compound` calls. -/
def Designer.id_to_name (G : Designer) : List (String × String) :=
  G.compounds.foldl (fun d p => dinsert d p.1 p.2) []

/-- The dict `name_to_id` built by the `_add_compound` calls. -/
def Designer.name_to_id (G : Designer) : List (String × String) :=
  G.compounds.foldl (fun d p => dinsert d p.2 p.1) []

/-- `compound_id`: `self.name_to_id.get(name)`. -/
def Designer.compound_id (G : Designer) (name : String) : Option String :=
  dlookup G.name_to_id name

/-- `compound_name`: `self.id_to_name.get(cid, cid)`. -/
def Designer.compound_name (G : Designer) (cid : String) : String :=
  (dlookup G.id_to_name cid).getD cid

/-- `self.product_to_reactions.get(target, [])`: the dict is populated by
appending each registered reaction under its product key, so the lookup is
the registration-ordered filter of the reaction list. -/
def Designer.product_to_reactions (G : Designer) (t : String) : List Reaction :=
  G.reactions.filter (fun r => decide (r.product = t))

/-- The recursively computed input costs of one rule (`_best_cost` of each
reactant), abstracted over the cost function for the extended stack. -/
def ruleCosts (f : String → Nat) (r : Reaction) : List Nat :=
  r.reactants.map f

/-- The loop over `rxn.reactants` leaves `feasible = True` iff every input
cost is below the `10**9` sentinel. -/
def ruleFeasible (f : String → Nat) (r : Reaction) : Prop :=
  ∀ c ∈ ruleCosts f r, c < INF

instance (f : String → Nat) (r : Reaction) : Decidable (ruleFeasible f r) :=
  List.decidableBAll _ _

/-- `total = 1 + sum of the input costs` for a feasible rule. -/
def ruleTotal (f : String → Nat) (r : Reaction) : Nat :=
  1 + (ruleCosts f r).sum

/-- The accumulation loop of `_best_cost`: starting from `(10**9, None)`,
replace the running best exactly when the rule is feasible and its total is
strictly below the running best. -/
def chooseBest (f : String → Nat) (rs : List Reaction) : Nat × Option Reaction :=
  rs.foldl
    (fun best r =>
      if ruleFeasible f r ∧ ruleTotal f r < best.1 then (ruleTotal f r, some r) else best)
    (INF, none)

/-- `_best_cost(target, stack)` with explicit fuel making the recursion
structural.  With fuel `0` the function answers `(INF, none)`; the stability
theorem below shows any sufficiently large fuel gives the fuel-free value. -/
def bestCost (G : Designer) : Nat → String → List String → Nat × Option Reaction
  | 0, _, _ => (INF, none)
  | fuel + 1, target, stack =>
    if target ∈ G.starting_materials then (0, none)
    else if target ∈ stack then (INF, none)
    else chooseBest (fun x => (bestCost G fuel x (stack ++ [target])).1)
      (G.product_to_reactions target)

/-- The number of distinct rule products not yet on the ancestor stack: the
quantity that bounds the remaining recursion depth of `_best_cost`. -/
def remD (G : Designer) (stack : List String) : Nat :=
  (((G.reactions.map (fun r => r.product)).dedup).filter (fun p => decide (p ∉ stack))).length

/-- A coarser executable bound: the number of reactions whose product is not
on the stack (no deduplication, hence `remD ≤ remCount`). -/
def remCount (G : Designer) (stack : List String) : Nat :=
  (G.reactions.filter (fun r => decide (r.product ∉ stack))).length

/-- `_best_cost(target, stack)` itself: the fuel is instantiated with a
provably sufficient bound, so this satisfies the Python recurrence exactly
(theorem `best_cost_eq`). -/
def best_cost (G : Designer) (target : String) (stack : List String) : Nat × Option Reaction :=
  bestCost G (remCount G stack + 1) target stack

theorem filter_length_mono {α : Type} (l : List α) (p q : α → Bool)
    (h : ∀ a, q a = true → p a = true) :
    (l.filter q).length ≤ (l.filter p).length := by
  induction l with
  | nil => simp
  | cons a l ih =>
    simp only [List.filter]
    cases hq : q a with
    | true => rw [h a hq]; simpa using ih
    | false => cases hp : p a <;> simp <;> omega

theorem filter_length_strict {α : Type} (l : List α) (p q : α → Bool)
    (h : ∀ a, q a = true → p a = true) (x : α) (hx : x ∈ l)
    (hpx : p x = true) (hqx : q x = false) :
    (l.filter q).length < (l.filter p).length := by
  induction l with
  | nil => simp at hx
  | cons a l ih =>
    rcases List.mem_cons.mp hx with rfl | hx'
    · simp only [List.filter, hpx, hqx]
      have := filter_length_mono l p q h
      simp only [List.length_cons]
      omega
    · simp only [List.filter]
      cases hq : q a with
      | true =>
        rw [h a hq]
        simpa using ih hx'
      | false =>
        cases hp : p a
        · exact ih hx'
        · simp only [List.length_cons]
          have := ih hx'
          omega

theorem remD_decrease (G : Designer) (t : String) (stack : List String)
    (ht : t ∈ G.reactions.map (fun r => r.product)) (hs : t ∉ stack) :
    remD G (stack ++ [t]) < remD G stack := by
  unfold remD
  refine filter_length_strict _ _ _ ?_ t ?_ ?_ ?_
  · intro a ha
    simp only [decide_eq_true_eq] at ha ⊢
    intro hmem
    exact ha (List.mem_append_left _ hmem)
  · exact List.mem_dedup.mpr ht
  · simpa using hs
  · simp

theorem remD_le_remCount (G : Designer) (stack : List String) :
    remD G stack ≤ remCount G stack := by
  unfold remD remCount
  calc (((G.reactions.map (fun r => r.product)).dedup).filter (fun p => decide (p ∉ stack))).length
      ≤ ((G.reactions.map (fun r => r.product)).filter (fun p => decide (p ∉ stack))).length :=
        ((List.dedup_sublist _).filter _).length_le
    _ = _ := by rw [List.filter_map, List.length_map]; rfl

theorem bestCost_stable (G : Designer) :
    ∀ f1 f2 t stack, remD G stack < f1 → remD G stack < f2 →
      bestCost G f1 t stack = bestCost G f2 t stack := by
  intro f1
  induction f1 with
  | zero => intro f2 t stack h1 h2; omega
  | succ k ih =>
    intro f2 t stack h1 h2
    cases f2 with
    | zero => omega
    | succ m =>
      simp only [bestCost]
      by_cases hsm : t ∈ G.starting_materials
      · simp [hsm]
      · by_cases hst : t ∈ stack
        · simp [hsm, hst]
        · simp only [hsm, hst, if_false]
          cases hr : G.product_to_reactions t with
          | nil => rfl
          | cons r rs =>
            have hmem : r ∈ G.product_to_reactions t := by rw [hr]; exact List.mem_cons_self _ _
            have hrp : r.product = t := by
              have := List.mem_filter.mp hmem
              simpa using this.2
            have htp : t ∈ G.reactions.map (fun r => r.product) := by
              have hre : r ∈ G.reactions := (List.mem_filter.mp hmem).1
              exact List.mem_map.mpr ⟨r, hre, hrp⟩
            have hdec : remD G (stack ++ [t]) < remD G stack := remD_decrease G t stack htp hst
            have hfun : (fun x => (bestCost G k x (stack ++ [t])).1)
                = (fun x => (bestCost G m x (stack ++ [t])).1) := by
              funext x
              exact congrArg Prod.fst (ih m x (stack ++ [t]) (by omega) (by omega))
            rw [hfun]

theorem best_cost_eq (G : Designer) (t : String) (stack : List String) :
    best_cost G t stack =
      if t ∈ G.starting_materials then (0, none)
      else if t ∈ stack then (INF, none)
      else chooseBest (fun x => (best_cost G x (stack ++ [t])).1)
        (G.product_to_reactions t) := by
  have h0 : best_cost G t stack = bestCost G (remCount G stack + 1) t stack := rfl
  rw [h0]
  simp only [bestCost]
  by_cases hsm : t ∈ G.starting_materials
  · simp [hsm]
  · by_cases hst : t ∈ stack
    · simp [hsm, hst]
    · simp only [hsm, hst, if_false]
      cases hr : G.product_to_reactions t with
      | nil => rfl
      | cons r rs =>
        have hmem : r ∈ G.product_to_reactions t := by rw [hr]; exact List.mem_cons_self _ _
        have hrp : r.product = t := by
          have := List.mem_filter.mp hmem
          simpa using this.2
        have htp : t ∈ G.reactions.map (fun r => r.product) := by
          have hre : r ∈ G.reactions := (List.mem_filter.mp hmem).1
          exact List.mem_map.mpr ⟨r, hre, hrp⟩
        have hdec : remD G (stack ++ [t]) < remD G stack := remD_decrease G t stack htp hst
        have hle : remD G stack ≤ remCount G stack := remD_le_remCount G stack
        have hle' : remD G (stack ++ [t]) ≤ remCount G (stack ++ [t]) :=
          remD_le_remCount G (stack ++ [t])
        have hfun : (fun x => (bestCost G (remCount G stack) x (stack ++ [t])).1)
            = (fun x => (best_cost G x (stack ++ [t])).1) := by
          funext x
          exact congrArg Prod.fst
            (bestCost_stable G (remCount G stack) (remCount G (stack ++ [t]) + 1) x
              (stack ++ [t]) (by omega) (by omega))
        rw [hfun]

/-- The specification's reading of steps 3–4 of the search: scanning the
rules in registration order, the winner is the first feasible rule whose
total is no larger than the best of everything registered after it (so ties
go to the earlier rule). -/
def specBest (f : String → Nat) : List Reaction → Nat × Option Reaction
  | [] => (INF, none)
  | r :: rs =>
    if ruleFeasible f r ∧ ruleTotal f r < INF ∧ ruleTotal f r ≤ (specBest f rs).1
    then (ruleTotal f r, some r) else specBest f rs

theorem specBest_fst_le (f : String → Nat) (rs : List Reaction) :
    (specBest f rs).1 ≤ INF := by
  induction rs with
  | nil => simp [specBest]
  | cons r rs ih =>
    simp only [specBest]
    by_cases h : ruleFeasible f r ∧ ruleTotal f r < INF ∧ ruleTotal f r ≤ (specBest f rs).1
    · rw [if_pos h]; exact le_of_lt h.2.1
    · rw [if_neg h]; exact ih

theorem specBest_none (f : String → Nat) (rs : List Reaction)
    (h : (specBest f rs).1 = INF) : (specBest f rs).2 = none := by
  induction rs with
  | nil => simp [specBest]
  | cons r rs ih =>
    simp only [specBest] at h ⊢
    by_cases hc : ruleFeasible f r ∧ ruleTotal f r < INF ∧ ruleTotal f r ≤ (specBest f rs).1
    · rw [if_pos hc] at h ⊢
      exact absurd h (Nat.ne_of_lt hc.2.1)
    · rw [if_neg hc] at h ⊢
      exact ih h

theorem specBest_some (f : String → Nat) (rs : List Reaction)
    (h : (specBest f rs).1 < INF) : ∃ r, (specBest f rs).2 = some r := by
  induction rs with
  | nil => simp [specBest] at h
  | cons r rs ih =>
    simp only [specBest] at h ⊢
    by_cases hc : ruleFeasible f r ∧ ruleTotal f r < INF ∧ ruleTotal f r ≤ (specBest f rs).1
    · rw [if_pos hc]; exact ⟨r, rfl⟩
    · rw [if_neg hc] at h ⊢; exact ih h

theorem specBest_mem (f : String → Nat) (rs : List Reaction) (r : Reaction)
    (h : (specBest f rs).2 = some r) :
    r ∈ rs ∧ ruleFeasible f r ∧ ruleTotal f r = (specBest f rs).1 ∧ (specBest f rs).1 < INF := by
  induction rs with
  | nil => simp [specBest] at h
  | cons a rs ih =>
    simp only [specBest] at h ⊢
    by_cases hc : ruleFeasible f a ∧ ruleTotal f a < INF ∧ ruleTotal f a ≤ (specBest f rs).1
    · rw [if_pos hc] at h ⊢
      obtain rfl : a = r := by simpa using h
      exact ⟨List.mem_cons_self _ _, hc.1, rfl, hc.2.1⟩
    · rw [if_neg hc] at h ⊢
      obtain ⟨h1, h2, h3, h4⟩ := ih h
      exact ⟨List.mem_cons_of_mem _ h1, h2, h3, h4⟩

theorem specBest_min (f : String → Nat) (rs : List Reaction) :
    (specBest f rs).1
      = ((rs.filter (fun r => decide (ruleFeasible f r))).map (ruleTotal f)).foldr min INF := by
  induction rs with
  | nil => rw [List.filter_nil, List.map_nil, List.foldr_nil]; rfl
  | cons r rs ih =>
    rw [List.filter_cons]
    by_cases hf : ruleFeasible f r
    · rw [if_pos (by simpa using hf), List.map_cons, List.foldr_cons, ← ih]
      simp only [specBest]
      by_cases hc : ruleFeasible f r ∧ ruleTotal f r < INF ∧ ruleTotal f r ≤ (specBest f rs).1
      · rw [if_pos hc]
        exact (Nat.min_eq_left hc.2.2).symm
      · rw [if_neg hc]
        have hle := specBest_fst_le f rs
        rcases Nat.lt_or_ge (ruleTotal f r) INF with hlt | hge
        · have hgt : ¬ ruleTotal f r ≤ (specBest f rs).1 := by
            intro hle'
            exact hc ⟨hf, hlt, hle'⟩
          rw [Nat.min_eq_right (by omega)]
        · rw [Nat.min_eq_right (by omega)]
    · rw [if_neg (by simpa using hf)]
      have hc : ¬ (ruleFeasible f r ∧ ruleTotal f r < INF ∧ ruleTotal f r ≤ (specBest f rs).1) :=
        fun h => hf h.1
      simp only [specBest]
      rw [if_neg hc]
      exact ih

theorem specBest_first (f : String → Nat) (rs : List Reaction)
    (h : (specBest f rs).1 < INF) :
    (specBest f rs).2
      = (rs.filter
          (fun r => decide (ruleFeasible f r ∧ ruleTotal f r = (specBest f rs).1))).head? := by
  induction rs with
  | nil => simp [specBest] at h
  | cons r rs ih =>
    by_cases hc : ruleFeasible f r ∧ ruleTotal f r < INF ∧ ruleTotal f r ≤ (specBest f rs).1
    · have he : specBest f (r :: rs) = (ruleTotal f r, some r) := by
        simp only [specBest]
        rw [if_pos hc]
      rw [he, List.filter_cons, if_pos (by simp [hc.1])]
      simp
    · have he : specBest f (r :: rs) = specBest f rs := by
        simp only [specBest]
        rw [if_neg hc]
      rw [he] at h ⊢
      rw [List.filter_cons]
      have hr : ¬ (ruleFeasible f r ∧ ruleTotal f r = (specBest f rs).1) := by
        rintro ⟨h1, h2⟩
        have := specBest_fst_le f rs
        exact hc ⟨h1, by omega, by omega⟩
      rw [if_neg (by simpa using hr)]
      exact ih h

theorem chooseBest_aux (f : String → Nat) (rs : List Reaction) :
    ∀ (b : Nat) (ob : Option Reaction), b ≤ INF →
      List.foldl
        (fun best r =>
          if ruleFeasible f r ∧ ruleTotal f r < best.1 then (ruleTotal f r, some r) else best)
        (b, ob) rs
      = if (specBest f rs).1 < b then specBest f rs else (b, ob) := by
  induction rs with
  | nil =>
    intro b ob hb
    simp only [List.foldl, specBest]
    rw [if_neg (by omega)]
  | cons r rs ih =>
    intro b ob hb
    simp only [List.foldl, specBest]
    by_cases hstep : ruleFeasible f r ∧ ruleTotal f r < b
    · rw [if_pos hstep, ih (ruleTotal f r) (some r) (by omega)]
      by_cases hrest : (specBest f rs).1 < ruleTotal f r
      · rw [if_pos hrest]
        have hcond : ¬ (ruleFeasible f r ∧ ruleTotal f r < INF
            ∧ ruleTotal f r ≤ (specBest f rs).1) := by
          rintro ⟨-, -, h3⟩; omega
        rw [if_neg hcond, if_pos (by omega)]
      · rw [if_neg hrest]
        have hcond : ruleFeasible f r ∧ ruleTotal f r < INF
            ∧ ruleTotal f r ≤ (specBest f rs).1 := ⟨hstep.1, by omega, by omega⟩
        rw [if_pos hcond, if_pos (by omega)]
    · rw [if_neg hstep, ih b ob hb]
      by_cases hcond : ruleFeasible f r ∧ ruleTotal f r < INF
          ∧ ruleTotal f r ≤ (specBest f rs).1
      · rw [if_pos hcond]
        have hge : b ≤ ruleTotal f r := by
          by_contra hlt
          exact hstep ⟨hcond.1, by omega⟩
        have h2 : ¬ ((specBest f rs).1 < b) := by
          have := hcond.2.2; omega
        rw [if_neg h2, if_neg (by omega)]
      · rw [if_neg hcond]

theorem chooseBest_eq_specBest (f : String → Nat) (rs : List Reaction) :
    chooseBest f rs = specBest f rs := by
  unfold chooseBest
  rw [chooseBest_aux f rs INF none (le_refl INF)]
  by_cases h : (specBest f rs).1 < INF
  · rw [if_pos h]
  · rw [if_neg h]
    have h1 : (specBest f rs).1 = INF :=
      le_antisymm (specBest_fst_le f rs) (le_of_not_lt h)
    have h2 := specBest_none f rs h1
    cases hsp : specBest f rs with
    | mk c o =>
      rw [hsp] at h1 h2
      simp at h1 h2
      rw [h1, h2]

/-- `best_cost` satisfies the fully spec-shaped recurrence. -/
theorem best_cost_spec (G : Designer) (t : String) (stack : List String) :
    best_cost G t stack =
      if t ∈ G.starting_materials then (0, none)
      else if t ∈ stack then (INF, none)
      else specBest (fun x => (best_cost G x (stack ++ [t])).1)
        (G.product_to_reactions t) := by
  rw [best_cost_eq, chooseBest_eq_specBest]

theorem best_cost_sm (G : Designer) (t : String) (stack : List String)
    (h : t ∈ G.starting_materials) : best_cost G t stack = (0, none) := by
  rw [best_cost_spec, if_pos h]

theorem best_cost_cycle (G : Designer) (t : String) (stack : List String)
    (h1 : t ∉ G.starting_materials) (h2 : t ∈ stack) :
    best_cost G t stack = (INF, none) := by
  rw [best_cost_spec, if_neg h1, if_pos h2]

theorem best_cost_le_INF (G : Designer) (t : String) (stack : List String) :
    (best_cost G t stack).1 ≤ INF := by
  rw [best_cost_spec]
  by_cases h1 : t ∈ G.starting_materials
  · rw [if_pos h1]; exact Nat.zero_le _
  · rw [if_neg h1]
    by_cases h2 : t ∈ stack
    · rw [if_pos h2]
    · rw [if_neg h2]; exact specBest_fst_le _ _

/-- Everything the search promises about a chosen rule: it produces the
target, is feasible at the extended stack, and its total is the cost. -/
theorem best_cost_rule (G : Designer) (t : String) (stack : List String) (r : Reaction)
    (h : (best_cost G t stack).2 = some r) :
    t ∉ G.starting_materials ∧ t ∉ stack ∧ r ∈ G.product_to_reactions t
      ∧ ruleFeasible (fun x => (best_cost G x (stack ++ [t])).1) r
      ∧ ruleTotal (fun x => (best_cost G x (stack ++ [t])).1) r = (best_cost G t stack).1
      ∧ (best_cost G t stack).1 < INF := by
  by_cases h1 : t ∈ G.starting_materials
  · rw [best_cost_sm G t stack h1] at h; simp at h
  · by_cases h2 : t ∈ stack
    · rw [best_cost_cycle G t stack h1 h2] at h; simp at h
    · have hs := best_cost_spec G t stack
      rw [if_neg h1, if_neg h2] at hs
      have h' : (specBest (fun x => (best_cost G x (stack ++ [t])).1)
          (G.product_to_reactions t)).2 = some r := by rw [← hs]; exact h
      obtain ⟨m1, m2, m3, m4⟩ := specBest_mem _ _ _ h'
      refine ⟨h1, h2, m1, m2, ?_, ?_⟩
      · rw [hs]; exact m3
      · rw [hs]; exact m4

theorem best_cost_some (G : Designer) (t : String) (stack : List String)
    (h1 : t ∉ G.starting_materials) (h2 : (best_cost G t stack).1 < INF) :
    ∃ r, (best_cost G t stack).2 = some r := by
  by_cases h3 : t ∈ stack
  · rw [best_cost_cycle G t stack h1 h3] at h2
    exact absurd h2 (lt_irrefl _)
  · have hs := best_cost_spec G t stack
    rw [if_neg h1, if_neg h3] at hs
    rw [hs] at h2 ⊢
    exact specBest_some _ _ h2

theorem mem_products_of_rule (G : Designer) (t : String) (r : Reaction)
    (h : r ∈ G.product_to_reactions t) :
    t ∈ G.reactions.map (fun r => r.product) := by
  have h1 := List.mem_filter.mp h
  have h2 : r.product = t := by simpa using h1.2
  exact List.mem_map.mpr ⟨r, h1.1, h2⟩

/-- The loop `for r in rxn.reactants: if not self._collect_steps(r, …): return False`:
the `(seen, ordered)` state is threaded left to right, failing fast. -/
def goMany
    (step : String → List Reaction × List Reaction → Option (List Reaction × List Reaction)) :
    List String → List Reaction × List Reaction → Option (List Reaction × List Reaction)
  | [], st => some st
  | t :: ts, st =>
    match step t st with
    | none => none
    | some st' => goMany step ts st'

/-- `_collect_steps(target, seen, ordered, stack)` with explicit fuel.  The
Python function mutates `seen` (a set, modelled by a membership list) and
`ordered` (appended on the right) and returns a Bool; here success returns
the final `(seen, ordered)` state and failure returns `none` (the partially
mutated state is discarded by `design_route` in both renderings). -/
def collectSteps (G : Designer) :
    Nat → String → List Reaction × List Reaction → List String →
      Option (List Reaction × List Reaction)
  | 0, _, _, _ => none
  | fuel + 1, target, st, stack =>
    if target ∈ G.starting_materials then some st
    else
      match (best_cost G target stack).2 with
      | none => none
      | some rxn =>
        match goMany (fun x st' => collectSteps G fuel x st' (stack ++ [target]))
            rxn.reactants st with
        | none => none
        | some st1 =>
          if rxn ∈ st1.1 then some st1
          else some (rxn :: st1.1, st1.2 ++ [rxn])

theorem collectSteps_stable (G : Designer) :
    ∀ f1 f2 t st stack, remD G stack < f1 → remD G stack < f2 →
      collectSteps G f1 t st stack = collectSteps G f2 t st stack := by
  intro f1
  induction f1 with
  | zero => intro f2 t st stack h1 h2; omega
  | succ k ih =>
    intro f2 t st stack h1 h2
    cases f2 with
    | zero => omega
    | succ m =>
      simp only [collectSteps]
      by_cases hsm : t ∈ G.starting_materials
      · simp [hsm]
      · simp only [hsm, if_false]
        cases hbc : (best_cost G t stack).2 with
        | none => rfl
        | some rxn =>
          obtain ⟨-, hst, hmem, -, -, -⟩ := best_cost_rule G t stack rxn hbc
          have hdec := remD_decrease G t stack (mem_products_of_rule G t rxn hmem) hst
          have hfun : (fun x st' => collectSteps G k x st' (stack ++ [t]))
              = (fun x st' => collectSteps G m x st' (stack ++ [t])) := by
            funext x st'
            exact ih m x st' (stack ++ [t]) (by omega) (by omega)
          rw [hfun]

/-- `_collect_steps` itself (fuel instantiated with a sufficient bound). -/
def collect_steps (G : Designer) (target : String) (seen ordered : List Reaction)
    (stack : List String) : Option (List Reaction × List Reaction) :=
  collectSteps G (remCount G stack + 1) target (seen, ordered) stack

/-- `collect_steps` satisfies the defining equations of `_collect_steps`. -/
theorem collect_steps_eq (G : Designer) (t : String) (seen ordered : List Reaction)
    (stack : List String) :
    collect_steps G t seen ordered stack =
      if t ∈ G.starting_materials then some (seen, ordered)
      else
        match (best_cost G t stack).2 with
        | none => none
        | some rxn =>
          match goMany (fun x st' => collect_steps G x st'.1 st'.2 (stack ++ [t]))
              rxn.reactants (seen, ordered) with
          | none => none
          | some st1 =>
            if rxn ∈ st1.1 then some st1
            else some (rxn :: st1.1, st1.2 ++ [rxn]) := by
  have h0 : collect_steps G t seen ordered stack
      = collectSteps G (remCount G stack + 1) t (seen, ordered) stack := rfl
  rw [h0]
  simp only [collectSteps]
  by_cases hsm : t ∈ G.starting_materials
  · simp [hsm]
  · simp only [hsm, if_false]
    cases hbc : (best_cost G t stack).2 with
    | none => rfl
    | some rxn =>
      obtain ⟨-, hst, hmem, -, -, -⟩ := best_cost_rule G t stack rxn hbc
      have hdec := remD_decrease G t stack (mem_products_of_rule G t rxn hmem) hst
      have hle := remD_le_remCount G stack
      have hle' := remD_le_remCount G (stack ++ [t])
      have hfun : (fun x st' => collectSteps G (remCount G stack) x st' (stack ++ [t]))
          = (fun x st' => collect_steps G x st'.1 st'.2 (stack ++ [t])) := by
        funext x st'
        exact collectSteps_stable G (remCount G stack) (remCount G (stack ++ [t]) + 1) x st'
          (stack ++ [t]) (by omega) (by omega)
      rw [hfun]

/-- `design_route(target_name)`: `None` for an unknown name, `[]` for a
known target with no route (cost at least `10**9`, or a failed collection),
else the collected ordered steps. -/
def Designer.design_route (G : Designer) (target_name : String) : Option (List Reaction) :=
  match G.compound_id target_name with
  | none => none
  | some cid =>
    if INF ≤ (best_cost G cid []).1 then some []
    else
      match collect_steps G cid [] [] [] with
      | none => some []
      | some st => some st.2

/-- Python's ascending comparison of the sort keys `(cost, name)` (tuple
order: by cost, then by name code-point lexicographically). -/
def demoLe (a b : Nat × String) : Prop :=
  a.1 < b.1 ∨ (a.1 = b.1 ∧ a.2 ≤ b.2)

instance : DecidableRel demoLe := fun a b => by
  unfold demoLe
  infer_instance

instance : IsTotal (Nat × String) demoLe := by
  constructor
  intro a b
  rcases Nat.lt_trichotomy a.1 b.1 with h | h | h
  · exact Or.inl (Or.inl h)
  · rcases le_total a.2 b.2 with h2 | h2
    · exact Or.inl (Or.inr ⟨h, h2⟩)
    · exact Or.inr (Or.inr ⟨h.symm, h2⟩)
  · exact Or.inr (Or.inl h)

instance : IsTrans (Nat × String) demoLe := by
  constructor
  intro a b c hab hbc
  rcases hab with h1 | ⟨h1, h1'⟩ <;> rcases hbc with h2 | ⟨h2, h2'⟩
  · exact Or.inl (lt_trans h1 h2)
  · exact Or.inl (h2 ▸ h1)
  · exact Or.inl (h1 ▸ h2)
  · exact Or.inr ⟨h1.trans h2, le_trans h1' h2'⟩

/-- `demo_targets(count)`: every non-starting-material compound in the
`id_to_name` registry with a finite cost becomes a `(cost, name)`
candidate; the candidates are sorted ascending by `(cost, name)` and the
first `count` names are returned.  (Any sort is extensionally identical to
Python's stable sort here because `demoLe` is antisymmetric: equal keys are
equal pairs.) -/
def Designer.demo_candidates (G : Designer) : List (Nat × String) :=
  G.id_to_name.filterMap (fun p =>
    if p.1 ∈ G.starting_materials then none
    else
      let c := (best_cost G p.1 []).1
      if c < INF then some (c, p.2) else none)

def Designer.demo_targets (G : Designer) (count : Nat) : List String :=
  ((List.insertionSort demoLe G.demo_candidates).take count).map (fun x => x.2)

/-- The `PREFIX` dict `{1: "甲", …, 10: "癸"}` (only ever read at keys 1–10). -/
def numeral : Nat → String
  | 1 => "甲"
  | 2 => "乙"
  | 3 => "丙"
  | 4 => "丁"
  | 5 => "戊"
  | 6 => "己"
  | 7 => "庚"
  | 8 => "辛"
  | 9 => "壬"
  | 10 => "癸"
  | _ => ""

/-- One iteration of the `_build_compounds` loop over `n in range(1, 11)`. -/
def compoundRow (n : Nat) : List (String × String) :=
  [("alkane:C" ++ toString n, numeral n ++ "烷"),
   ("haloalkane:C" ++ toString n, "氯" ++ numeral n ++ "烷"),
   ("alcohol:C" ++ toString n, numeral n ++ "醇"),
   ("aldehyde:C" ++ toString n, numeral n ++ "醛"),
   ("acid:C" ++ toString n, numeral n ++ "酸")]
  ++ (if 2 ≤ n then [("alkene:C" ++ toString n, numeral n ++ "烯")] else [])

/-- The ester double loop of `_build_compounds`. -/
def esterCompounds : List (String × String) :=
  (List.range' 1 10).flatMap (fun a =>
    (List.range' 1 10).map (fun b =>
      ("ester:C" ++ toString a ++ ":C" ++ toString b,
        numeral a ++ "酸" ++ numeral b ++ "酯")))

/-- The aromatic dict of `_build_compounds`, in literal order. -/
def aromaticCompounds : List (String × String) :=
  [("benzene", "苯"), ("chlorobenzene", "氯苯"), ("bromobenzene", "溴苯"),
   ("nitrobenzene", "硝基苯"), ("aniline", "苯胺"), ("phenol", "苯酚")]

/-- One iteration of the `_build_reactions` loop over `n in range(1, 11)`. -/
def reactionRow (n : Nat) : List Reaction :=
  [⟨["alkane:C" ++ toString n], "haloalkane:C" ++ toString n, "Cl₂/光照（取代）", "取代反应"⟩,
   ⟨["haloalkane:C" ++ toString n], "alcohol:C" ++ toString n, "NaOH(水), 加热（取代）", "取代反应"⟩,
   ⟨["alcohol:C" ++ toString n], "haloalkane:C" ++ toString n, "HCl/ZnCl₂ 或 SOCl₂", "取代反应"⟩]
  ++ (if 2 ≤ n then
      [⟨["haloalkane:C" ++ toString n], "alkene:C" ++ toString n, "NaOH(醇), 加热（消去）", "消去反应"⟩,
       ⟨["alkene:C" ++ toString n], "alcohol:C" ++ toString n, "H₂O/H⁺（加成）", "加成反应"⟩,
       ⟨["alcohol:C" ++ toString n], "alkene:C" ++ toString n, "浓H₂SO₄, 170℃（消去）", "消去反应"⟩]
    else [])
  ++ [⟨["alcohol:C" ++ toString n], "aldehyde:C" ++ toString n, "Cu/加热 或 催化氧化", "氧化反应"⟩,
      ⟨["aldehyde:C" ++ toString n], "acid:C" ++ toString n, "酸性KMnO₄ 或 [O]", "氧化反应"⟩]

/-- The esterification double loop of `_build_reactions`. -/
def esterReactions : List Reaction :=
  (List.range' 1 10).flatMap (fun a =>
    (List.range' 1 10).map (fun b =>
      (⟨["acid:C" ++ toString a, "alcohol:C" ++ toString b],
        "ester:C" ++ toString a ++ ":C" ++ toString b,
        "浓H₂SO₄, 加热（酯化）", "酯化反应"⟩ : Reaction)))

/-- The aromatic reactions of `_build_reactions`, in registration order. -/
def aromaticReactions : List Reaction :=
  [⟨["benzene"], "chlorobenzene", "Cl₂/FeCl₃（苯环取代）", "取代反应"⟩,
   ⟨["benzene"], "bromobenzene", "Br₂/FeBr₃（苯环取代）", "取代反应"⟩,
   ⟨["benzene"], "nitrobenzene", "浓HNO₃+浓H₂SO₄, 55℃", "硝化反应"⟩,
   ⟨["nitrobenzene"], "aniline", "Fe/HCl 还原", "还原反应"⟩,
   ⟨["chlorobenzene"], "phenol", "NaOH(高温高压), 后酸化", "水解反应"⟩]

/-- The designer `OrganicRouteDesigner()` builds in `__init__`. -/
def concrete : Designer :=
  ⟨(List.range' 1 10).flatMap compoundRow ++ esterCompounds ++ aromaticCompounds,
   (List.range' 1 10).map (fun n => "alkane:C" ++ toString n)
     ++ ["alkene:C2", "alkene:C3", "alkene:C4", "benzene", "alcohol:C1", "alcohol:C2"],
   (List.range' 1 10).flatMap reactionRow ++ esterReactions ++ aromaticReactions⟩

/-- A two-rule cycle: A is producible from B and B from A, neither a
starting material (spec §8, cycle safety). -/
def cycleG : Designer :=
  ⟨[("A", "A"), ("B", "B")], [],
   [⟨["B"], "A", "", ""⟩, ⟨["A"], "B", "", ""⟩]⟩

/-- A linear chain a → b → c with starting material a. -/
def chainG : Designer :=
  ⟨[("a", "a"), ("b", "b"), ("c", "c")], ["a"],
   [⟨["a"], "b", "", ""⟩, ⟨["b"], "c", "", ""⟩]⟩

def chainR1 : Reaction := ⟨["a"], "b", "", ""⟩

def chainR2 : Reaction := ⟨["b"], "c", "", ""⟩

/-- A diamond: s → m, m → a, m → b, (a, b) → t: the rule producing the
shared intermediate m is needed by both branches of t. -/
def diamondG : Designer :=
  ⟨[("s", "s"), ("m", "m"), ("a", "a"), ("b", "b"), ("t", "t")], ["s"],
   [⟨["s"], "m", "", ""⟩, ⟨["m"], "a", "", ""⟩, ⟨["m"], "b", "", ""⟩,
    ⟨["a", "b"], "t", "", ""⟩]⟩

def diamondRM : Reaction := ⟨["s"], "m", "", ""⟩

def diamondRA : Reaction := ⟨["m"], "a", "", ""⟩

def diamondRB : Reaction := ⟨["m"], "b", "", ""⟩

def diamondRT : Reaction := ⟨["a", "b"], "t", "", ""⟩

/-- A registry with one unreachable compound U and one starting material S. -/
def unreachG : Designer :=
  ⟨[("U", "u"), ("S", "s")], ["S"], []⟩

/-- Exactly one 1-step compound (x) and one 2-step compound (y) reachable
from the starting material s (spec §8, ranking scenario). -/
def rankG : Designer :=
  ⟨[("s", "s"), ("x", "nx"), ("y", "ny")], ["s"],
   [⟨["s"], "x", "", ""⟩, ⟨["x"], "y", "", ""⟩]⟩

/-- The seen-set and the ordered list of `_collect_steps` hold the same
rules (Python keeps them in lockstep: every append is paired with an add). -/
def sync (st : List Reaction × List Reaction) : Prop :=
  ∀ r : Reaction, r ∈ st.1 ↔ r ∈ st.2

/-- Input `x` is available after the rules `l` have been run: it is a
starting material or the product of one of them. -/
def avail (G : Designer) (l : List Reaction) (x : String) : Prop :=
  x ∈ G.starting_materials ∨ ∃ r ∈ l, r.product = x

/-- Forward simulation of a step sequence after `done` has already run:
every rule's inputs are available from the starting materials and the rules
before it.  (`depOrdered = depOrderedFrom` at `done = []` is the
dependency-order invariant of the spec.) -/
def depOrderedFrom (G : Designer) : List Reaction → List Reaction → Prop
  | _, [] => True
  | done, r :: rest =>
    (∀ x ∈ r.reactants, avail G done x) ∧ depOrderedFrom G (done ++ [r]) rest

def depOrdered (G : Designer) (steps : List Reaction) : Prop :=
  depOrderedFrom G [] steps

theorem avail_mono (G : Designer) (l δ : List Reaction) (x : String)
    (h : avail G l x) : avail G (l ++ δ) x := by
  rcases h with h | ⟨r, hr, hp⟩
  · exact Or.inl h
  · exact Or.inr ⟨r, List.mem_append_left _ hr, hp⟩

theorem depOrderedFrom_concat (G : Designer) (r : Reaction) :
    ∀ (l d : List Reaction), depOrderedFrom G d l →
      (∀ x ∈ r.reactants, avail G (d ++ l) x) → depOrderedFrom G d (l ++ [r]) := by
  intro l
  induction l with
  | nil =>
    intro d _ hav
    refine ⟨?_, trivial⟩
    intro x hx
    simpa using hav x hx
  | cons a l ih =>
    intro d hd hav
    obtain ⟨h1, h2⟩ := hd
    refine ⟨h1, ih (d ++ [a]) h2 ?_⟩
    intro x hx
    have h3 := hav x hx
    have he : d ++ [a] ++ l = d ++ a :: l := by simp
    rw [he]
    exact h3

/-- Everything one successful `_collect_steps(t, …)` call guarantees about
the state transition from `st` to `st'`. -/
def CsOK (G : Designer) (t : String) (st st' : List Reaction × List Reaction)
    (stack : List String) : Prop :=
  (∃ δ, st'.2 = st.2 ++ δ) ∧
  (∀ r, r ∈ st'.1 → r ∈ st.1 ∨ r.product ∉ stack) ∧
  (sync st → sync st') ∧
  (sync st → st.2.Nodup → st'.2.Nodup) ∧
  (sync st → (t ∈ G.starting_materials ∨ ∃ r ∈ st'.2, r.product = t)) ∧
  (sync st → ∀ d, depOrderedFrom G d st.2 → depOrderedFrom G d st'.2) ∧
  st'.2.length ≤ st.2.length + (best_cost G t stack).1

/-- The same for a successful reactant loop over `ts` (all at one stack). -/
def GmOK (G : Designer) (ts : List String) (st st' : List Reaction × List Reaction)
    (stack : List String) : Prop :=
  (∃ δ, st'.2 = st.2 ++ δ) ∧
  (∀ r, r ∈ st'.1 → r ∈ st.1 ∨ r.product ∉ stack) ∧
  (sync st → sync st') ∧
  (sync st → st.2.Nodup → st'.2.Nodup) ∧
  (sync st → ∀ x ∈ ts, x ∈ G.starting_materials ∨ ∃ r ∈ st'.2, r.product = x) ∧
  (sync st → ∀ d, depOrderedFrom G d st.2 → depOrderedFrom G d st'.2) ∧
  st'.2.length ≤ st.2.length + (ts.map (fun x => (best_cost G x stack).1)).sum

theorem GmOK_refl (G : Designer) (st : List Reaction × List Reaction)
    (stack : List String) : GmOK G [] st st stack := by
  refine ⟨⟨[], by simp⟩, ?_, ?_, ?_, ?_, ?_, ?_⟩
  · intro r hr; exact Or.inl hr
  · exact id
  · exact fun _ => id
  · intro _ x hx; simp at hx
  · exact fun _ _ => id
  · simp

theorem collect_main (G : Designer) : ∀ fuel,
    (∀ t st stack st', collectSteps G fuel t st stack = some st' → CsOK G t st st' stack) ∧
    (∀ ts st stack st',
      goMany (fun x s => collectSteps G fuel x s stack) ts st = some st' →
        GmOK G ts st st' stack) := by
  intro fuel
  induction fuel with
  | zero =>
    constructor
    · intro t st stack st' h
      simp [collectSteps] at h
    · intro ts st stack st' h
      cases ts with
      | nil =>
        simp only [goMany] at h
        obtain rfl := Option.some.inj h
        exact GmOK_refl _ _ _
      | cons x ts =>
        simp [goMany, collectSteps] at h
  | succ f ihf =>
    obtain ⟨ihP, ihQ⟩ := ihf
    have hP : ∀ t st stack st',
        collectSteps G (f + 1) t st stack = some st' → CsOK G t st st' stack := by
      intro t st stack st' h
      simp only [collectSteps] at h
      by_cases hsm : t ∈ G.starting_materials
      · rw [if_pos hsm] at h
        obtain rfl := Option.some.inj h
        refine ⟨⟨[], by simp⟩, ?_, fun hs => hs, fun _ => id, ?_, fun _ _ => id, ?_⟩
        · intro r hr; exact Or.inl hr
        · intro _; exact Or.inl hsm
        · omega
      · rw [if_neg hsm] at h
        cases hbc : (best_cost G t stack).2 with
        | none => rw [hbc] at h; simp at h
        | some rxn =>
          rw [hbc] at h
          dsimp only at h
          obtain ⟨-, hst, hmem, hfeas, htotal, hlt⟩ := best_cost_rule G t stack rxn hbc
          have hprod : rxn.product = t := by
            have h1 := List.mem_filter.mp hmem
            simpa using h1.2
          cases hgm : goMany (fun x s => collectSteps G f x s (stack ++ [t]))
              rxn.reactants st with
          | none => rw [hgm] at h; simp at h
          | some st1 =>
            rw [hgm] at h
            dsimp only at h
            obtain ⟨⟨δ1, hδ1⟩, g2, g3, g4, g5, g6, g7⟩ := ihQ rxn.reactants st (stack ++ [t]) st1 hgm
            have hsum : (best_cost G t stack).1
                = 1 + (rxn.reactants.map (fun x => (best_cost G x (stack ++ [t])).1)).sum := by
              rw [← htotal]; rfl
            have hweak : ∀ r : Reaction, r ∈ st1.1 → r ∈ st.1 ∨ r.product ∉ stack := by
              intro r hr
              rcases g2 r hr with h1 | h1
              · exact Or.inl h1
              · exact Or.inr fun hm => h1 (List.mem_append_left _ hm)
            have hlen : st1.2.length ≤ st.2.length + (best_cost G t stack).1 := by
              rw [hsum]
              omega
            by_cases hseen : rxn ∈ st1.1
            · rw [if_pos hseen] at h
              obtain rfl := Option.some.inj h
              refine ⟨⟨δ1, hδ1⟩, hweak, g3, g4, ?_, g6, hlen⟩
              intro hs
              exact Or.inr ⟨rxn, (g3 hs rxn).mp hseen, hprod⟩
            · rw [if_neg hseen] at h
              obtain rfl := Option.some.inj h
              refine ⟨⟨δ1 ++ [rxn], by simp [hδ1]⟩, ?_, ?_, ?_, ?_, ?_, ?_⟩
              · intro r hr
                rcases List.mem_cons.mp hr with rfl | hr'
                · exact Or.inr (hprod ▸ hst)
                · exact hweak r hr'
              · intro hs r
                constructor
                · intro hr
                  rcases List.mem_cons.mp hr with rfl | hr'
                  · simp
                  · exact List.mem_append_left _ ((g3 hs r).mp hr')
                · intro hr
                  rcases List.mem_append.mp hr with hr' | hr'
                  · exact List.mem_cons_of_mem _ ((g3 hs r).mpr hr')
                  · simp at hr'
                    subst hr'
                    exact List.mem_cons_self _ _
              · intro hs hnd
                have hnd1 := g4 hs hnd
                have hnotin : rxn ∉ st1.2 := fun hm => hseen ((g3 hs rxn).mpr hm)
                simp [List.nodup_append, hnd1, hnotin]
              · intro _
                exact Or.inr ⟨rxn, by simp, hprod⟩
              · intro hs d hd
                have hd1 := g6 hs d hd
                refine depOrderedFrom_concat G rxn st1.2 d hd1 ?_
                intro x hx
                have hx' := g5 hs x hx
                rcases hx' with hx' | ⟨r, hr, hp⟩
                · exact Or.inl hx'
                · exact Or.inr ⟨r, List.mem_append_right _ hr, hp⟩
              · simp only [List.length_append, List.length_cons, List.length_nil]
                rw [hsum]
                omega
    refine ⟨hP, ?_⟩
    intro ts
    induction ts with
    | nil =>
      intro st stack st' h
      simp only [goMany] at h
      obtain rfl := Option.some.inj h
      exact GmOK_refl _ _ _
    | cons x ts ihts =>
      intro st stack st' h
      simp only [goMany] at h
      cases hstep : collectSteps G (f + 1) x st stack with
      | none => rw [hstep] at h; simp at h
      | some stm =>
        rw [hstep] at h
        dsimp only at h
        obtain ⟨⟨δ1, hδ1⟩, p2, p3, p4, p5, p6, p7⟩ := hP x st stack stm hstep
        obtain ⟨⟨δ2, hδ2⟩, q2, q3, q4, q5, q6, q7⟩ := ihts stm stack st' h
        refine ⟨⟨δ1 ++ δ2, by simp [hδ2, hδ1]⟩, ?_, ?_, ?_, ?_, ?_, ?_⟩
        · intro r hr
          rcases q2 r hr with h1 | h1
          · exact p2 r h1
          · exact Or.inr h1
        · exact fun hs => q3 (p3 hs)
        · exact fun hs hnd => q4 (p3 hs) (p4 hs hnd)
        · intro hs y hy
          rcases List.mem_cons.mp hy with rfl | hy'
          · rcases p5 hs with h1 | ⟨r, hr, hp⟩
            · exact Or.inl h1
            · exact Or.inr ⟨r, by rw [hδ2]; exact List.mem_append_left _ hr, hp⟩
          · exact q5 (p3 hs) y hy'
        · exact fun hs d hd => q6 (p3 hs) d (p6 hs d hd)
        · simp only [List.map_cons, List.sum_cons]
          omega
theorem collect_success (G : Designer) : ∀ fuel,
    (∀ t st stack, remD G stack < fuel → (best_cost G t stack).1 < INF →
      ∃ st', collectSteps G fuel t st stack = some st') ∧
    (∀ ts st stack, remD G stack < fuel →
      (∀ x ∈ ts, (best_cost G x stack).1 < INF) →
      ∃ st', goMany (fun x s => collectSteps G fuel x s stack) ts st = some st') := by
  intro fuel
  induction fuel with
  | zero =>
    constructor
    · intro t st stack h1 h2; omega
    · intro ts st stack h1 h2; omega
  | succ f ihf =>
    obtain ⟨ihP, ihQ⟩ := ihf
    have hP : ∀ t st stack, remD G stack < f + 1 → (best_cost G t stack).1 < INF →
        ∃ st', collectSteps G (f + 1) t st stack = some st' := by
      intro t st stack hrem hcost
      simp only [collectSteps]
      by_cases hsm : t ∈ G.starting_materials
      · rw [if_pos hsm]; exact ⟨st, rfl⟩
      · rw [if_neg hsm]
        obtain ⟨rxn, hbc⟩ := best_cost_some G t stack hsm hcost
        rw [hbc]
        dsimp only
        obtain ⟨-, hst, hmem, hfeas, -, -⟩ := best_cost_rule G t stack rxn hbc
        have hdec := remD_decrease G t stack (mem_products_of_rule G t rxn hmem) hst
        have hxcosts : ∀ x ∈ rxn.reactants, (best_cost G x (stack ++ [t])).1 < INF := by
          intro x hx
          exact hfeas _ (List.mem_map.mpr ⟨x, hx, rfl⟩)
        obtain ⟨st1, hgm⟩ := ihQ rxn.reactants st (stack ++ [t]) (by omega) hxcosts
        rw [hgm]
        dsimp only
        by_cases hseen : rxn ∈ st1.1
        · rw [if_pos hseen]; exact ⟨st1, rfl⟩
        · rw [if_neg hseen]; exact ⟨_, rfl⟩
    refine ⟨hP, ?_⟩
    intro ts
    induction ts with
    | nil =>
      intro st stack h1 h2
      exact ⟨st, rfl⟩
    | cons x ts ihts =>
      intro st stack h1 h2
      obtain ⟨stm, hstep⟩ := hP x st stack h1 (h2 x (List.mem_cons_self _ _))
      simp only [goMany]
      rw [hstep]
      dsimp only
      exact ihts stm stack h1 (fun y hy => h2 y (List.mem_cons_of_mem _ hy))

theorem collect_steps_main (G : Designer) (t : String) (seen ordered : List Reaction)
    (stack : List String) (st' : List Reaction × List Reaction)
    (h : collect_steps G t seen ordered stack = some st') :
    CsOK G t (seen, ordered) st' stack :=
  (collect_main G (remCount G stack + 1)).1 t (seen, ordered) stack st' h

theorem collect_steps_success (G : Designer) (t : String) (seen ordered : List Reaction)
    (stack : List String) (h : (best_cost G t stack).1 < INF) :
    ∃ st', collect_steps G t seen ordered stack = some st' := by
  have hb := remD_le_remCount G stack
  exact (collect_success G (remCount G stack + 1)).1 t (seen, ordered) stack (by omega) h

/-- At the top-level call (`stack = ()`, fresh `seen`), a successful
collection ends with the rule the search chose for the target: the last
appended rule produces the target itself. -/
theorem collect_top (G : Designer) (t : String) (st' : List Reaction × List Reaction)
    (hsm : t ∉ G.starting_materials)
    (h : collect_steps G t [] [] [] = some st') :
    ∃ l rxn, st'.2 = l ++ [rxn] ∧ rxn.product = t ∧ (best_cost G t []).2 = some rxn := by
  have h' : collectSteps G (remCount G ([] : List String) + 1) t ([], []) [] = some st' := h
  simp only [collectSteps] at h'
  rw [if_neg hsm] at h'
  cases hbc : (best_cost G t []).2 with
  | none => rw [hbc] at h'; simp at h'
  | some rxn =>
    rw [hbc] at h'
    dsimp only at h'
    obtain ⟨-, -, hmem, -, -, -⟩ := best_cost_rule G t [] rxn hbc
    have hprod : rxn.product = t := by simpa using (List.mem_filter.mp hmem).2
    cases hgm : goMany (fun x s => collectSteps G (remCount G ([] : List String)) x s ([] ++ [t]))
        rxn.reactants ([], []) with
    | none => rw [hgm] at h'; simp at h'
    | some st1 =>
      rw [hgm] at h'
      dsimp only at h'
      obtain ⟨-, g2, -, -, -, -, -⟩ :=
        (collect_main G (remCount G ([] : List String))).2 rxn.reactants ([], []) ([] ++ [t]) st1 hgm
      have hseen : rxn ∉ st1.1 := by
        intro hmem1
        rcases g2 rxn hmem1 with h1 | h1
        · simp at h1
        · exact h1 (by simp [hprod])
      rw [if_neg hseen] at h'
      obtain rfl := Option.some.inj h'
      exact ⟨st1.2, rxn, rfl, hprod, rfl⟩

theorem sync_nil : sync (([] : List Reaction), ([] : List Reaction)) := by
  intro r
  simp [sync]

theorem design_route_unknown (G : Designer) (name : String)
    (h : G.compound_id name = none) : G.design_route name = none := by
  unfold Designer.design_route
  rw [h]

theorem design_route_unreachable (G : Designer) (name cid : String)
    (h1 : G.compound_id name = some cid) (h2 : INF ≤ (best_cost G cid []).1) :
    G.design_route name = some [] := by
  unfold Designer.design_route
  rw [h1]
  dsimp only
  rw [if_pos h2]

theorem design_route_of_sm (G : Designer) (name cid : String)
    (h1 : G.compound_id name = some cid) (h2 : cid ∈ G.starting_materials) :
    G.design_route name = some [] := by
  unfold Designer.design_route
  rw [h1]
  dsimp only
  have h0 : best_cost G cid [] = (0, none) := best_cost_sm G cid [] h2
  rw [h0]
  have hneg : ¬ (INF ≤ ((0 : Nat), (none : Option Reaction)).1) := by
    norm_num [INF]
  rw [if_neg hneg]
  have hcol : collect_steps G cid [] [] [] = some ([], []) := by
    have h3 : collectSteps G (remCount G ([] : List String) + 1) cid ([], []) [] = some ([], []) := by
      simp only [collectSteps]
      rw [if_pos h2]
    exact h3
  rw [hcol]

/-- The else branch of `design_route`: a finite-cost target yields the
collected steps (collection itself never fails there, see `claim10_…`). -/
theorem design_route_collected (G : Designer) (name cid : String)
    (h1 : G.compound_id name = some cid) (h2 : ¬ INF ≤ (best_cost G cid []).1)
    (st : List Reaction × List Reaction) (h3 : collect_steps G cid [] [] [] = some st) :
    G.design_route name = some st.2 := by
  unfold Designer.design_route
  rw [h1]
  dsimp only
  rw [if_neg h2, h3]

/-- Claim C2 (confirmed): `minimum_cost` is 0 on a starting material; it is
the `INF` sentinel with no rule when the target sits on the ancestor path;
otherwise the cost is the minimum of `1 + sum of recursive input costs`
over the feasible rules producing the target (`INF` if none), the inputs
being evaluated with the target appended to the path, and the chosen rule
is the first-registered feasible rule achieving that minimum (no rule when
the cost is `INF`): the strict less-than comparison keeps the earliest. -/
theorem claim2_best_cost_recurrence (G : Designer) (t : String) (stack : List String) :
    (t ∈ G.starting_materials → best_cost G t stack = (0, none)) ∧
    (t ∉ G.starting_materials → t ∈ stack → best_cost G t stack = (INF, none)) ∧
    (t ∉ G.starting_materials → t ∉ stack →
      (best_cost G t stack).1
          = (((G.product_to_reactions t).filter
              (fun r => decide (ruleFeasible (fun x => (best_cost G x (stack ++ [t])).1) r))).map
              (ruleTotal (fun x => (best_cost G x (stack ++ [t])).1))).foldr min INF
        ∧ ((best_cost G t stack).1 < INF →
            (best_cost G t stack).2
              = ((G.product_to_reactions t).filter
                  (fun r => decide (ruleFeasible (fun x => (best_cost G x (stack ++ [t])).1) r
                    ∧ ruleTotal (fun x => (best_cost G x (stack ++ [t])).1) r
                      = (best_cost G t stack).1))).head?)
        ∧ ((best_cost G t stack).1 = INF → (best_cost G t stack).2 = none)) := by
  refine ⟨best_cost_sm G t stack, best_cost_cycle G t stack, ?_⟩
  intro h1 h2
  have hs := best_cost_spec G t stack
  rw [if_neg h1, if_neg h2] at hs
  refine ⟨?_, ?_, ?_⟩
  · rw [hs]
    exact specBest_min _ _
  · intro hlt
    rw [hs] at hlt ⊢
    exact specBest_first _ _ hlt
  · intro heq
    rw [hs] at heq ⊢
    exact specBest_none _ _ heq

/-- Claim C3 (confirmed): whenever `design_route` returns a step sequence,
simulating it forward shows every rule's inputs are already available —
each input is a starting material or the product of a strictly earlier
rule of the sequence. -/
theorem claim3_dependency_order (G : Designer) (name : String) (steps : List Reaction)
    (h : G.design_route name = some steps) : depOrdered G steps := by
  unfold Designer.design_route at h
  cases hcid : G.compound_id name with
  | none => rw [hcid] at h; exact Option.noConfusion h
  | some cid =>
    rw [hcid] at h
    dsimp only at h
    by_cases hc : INF ≤ (best_cost G cid []).1
    · rw [if_pos hc] at h
      obtain rfl := Option.some.inj h
      trivial
    · rw [if_neg hc] at h
      cases hcol : collect_steps G cid [] [] [] with
      | none =>
        rw [hcol] at h
        obtain rfl := Option.some.inj h
        trivial
      | some st =>
        rw [hcol] at h
        obtain rfl := Option.some.inj h
        obtain ⟨-, -, -, -, -, g6, -⟩ := collect_steps_main G cid [] [] [] st hcol
        exact g6 sync_nil [] trivial

/-- Claim C3 witness: the two-step chain route `a → b → c` is
dependency-ordered. -/
theorem claim3_witness : depOrdered chainG [chainR1, chainR2] :=
  claim3_dependency_order chainG "c" [chainR1, chainR2] (by decide)

/-- Claim C4 (confirmed): a step sequence returned by `design_route` never
contains the same transformation rule twice. -/
theorem claim4_no_duplicates (G : Designer) (name : String) (steps : List Reaction)
    (h : G.design_route name = some steps) : steps.Nodup := by
  unfold Designer.design_route at h
  cases hcid : G.compound_id name with
  | none => rw [hcid] at h; exact Option.noConfusion h
  | some cid =>
    rw [hcid] at h
    dsimp only at h
    by_cases hc : INF ≤ (best_cost G cid []).1
    · rw [if_pos hc] at h
      obtain rfl := Option.some.inj h
      exact List.nodup_nil
    · rw [if_neg hc] at h
      cases hcol : collect_steps G cid [] [] [] with
      | none =>
        rw [hcol] at h
        obtain rfl := Option.some.inj h
        exact List.nodup_nil
      | some st =>
        rw [hcol] at h
        obtain rfl := Option.some.inj h
        obtain ⟨-, -, -, g4, -, -, -⟩ := collect_steps_main G cid [] [] [] st hcol
        exact g4 sync_nil List.nodup_nil

/-- Claim C4 witness: in the diamond graph the shared intermediate's rule
appears once and the route for `t` has no duplicate. -/
theorem claim4_witness : ([diamondRM, diamondRA, diamondRB, diamondRT] : List Reaction).Nodup :=
  claim4_no_duplicates diamondG "t" [diamondRM, diamondRA, diamondRB, diamondRT] (by decide)

/-- Claim C5 (confirmed): the fuelled search stabilises as soon as the fuel
exceeds the number of distinct rule products outside the ancestor path (so
the recursion depth is bounded by the number of distinct compounds and the
Python recursion terminates on every input), and on the two-rule cycle
(A from B, B from A, no starting materials) both compounds resolve to the
unreachable sentinel instead of diverging. -/
theorem claim5_termination :
    (∀ (G : Designer) (t : String) (stack : List String) (fuel : Nat),
        remD G stack < fuel → bestCost G fuel t stack = best_cost G t stack) ∧
    best_cost cycleG "A" [] = (INF, none) ∧ best_cost cycleG "B" [] = (INF, none) := by
  refine ⟨?_, by decide, by decide⟩
  intro G t stack fuel h
  have hb := remD_le_remCount G stack
  exact bestCost_stable G fuel (remCount G stack + 1) t stack h (by omega)

/-- Claim C6 (confirmed): `design_route` answers `None` exactly for a name
missing from the registry, and a known target whose minimum cost reaches
the `INF` sentinel gets the distinct "no route" answer `some []`. -/
theorem claim6_outcomes (G : Designer) (name : String) :
    (G.design_route name = none ↔ G.compound_id name = none) ∧
    (∀ cid, G.compound_id name = some cid → INF ≤ (best_cost G cid []).1 →
      G.design_route name = some []) := by
  constructor
  · constructor
    · intro h
      cases hcid : G.compound_id name with
      | none => rfl
      | some cid =>
        unfold Designer.design_route at h
        rw [hcid] at h
        dsimp only at h
        by_cases hc : INF ≤ (best_cost G cid []).1
        · rw [if_pos hc] at h
          exact Option.noConfusion h
        · rw [if_neg hc] at h
          cases hcol : collect_steps G cid [] [] [] with
          | none => rw [hcol] at h; exact Option.noConfusion h
          | some st => rw [hcol] at h; exact Option.noConfusion h
    · exact design_route_unknown G name
  · intro cid h1 h2
    exact design_route_unreachable G name cid h1 h2

/-- Claim C7 (confirmed): a starting material costs 0 with no rule chosen,
whatever the ancestor path and whatever rules also produce it, and its
route is the empty sequence. -/
theorem claim7_starting_materials (G : Designer) (t name cid : String)
    (stack : List String) :
    (t ∈ G.starting_materials → best_cost G t stack = (0, none)) ∧
    (G.compound_id name = some cid → cid ∈ G.starting_materials →
      G.design_route name = some []) := by
  constructor
  · exact best_cost_sm G t stack
  · exact design_route_of_sm G name cid

/-- Claim C9 (confirmed): a known-but-unreachable target and a
starting-material target make `design_route` return the very same value,
the empty sequence, so the caller cannot tell the two apart. -/
theorem claim9_empty_ambiguity (G : Designer) (n1 n2 cid1 cid2 : String)
    (h1 : G.compound_id n1 = some cid1) (h2 : INF ≤ (best_cost G cid1 []).1)
    (h3 : G.compound_id n2 = some cid2) (h4 : cid2 ∈ G.starting_materials) :
    G.design_route n1 = some [] ∧ G.design_route n2 = some [] ∧
      G.design_route n1 = G.design_route n2 := by
  have e1 := design_route_unreachable G n1 cid1 h1 h2
  have e2 := design_route_of_sm G n2 cid2 h3 h4
  exact ⟨e1, e2, by rw [e1, e2]⟩

/-- Claim C9 witness: in `unreachG`, the unreachable compound U and the
starting material S both get `some []`. -/
theorem claim9_witness :
    unreachG.design_route "u" = some [] ∧ unreachG.design_route "s" = some [] ∧
      unreachG.design_route "u" = unreachG.design_route "s" :=
  claim9_empty_ambiguity unreachG "u" "s" "U" "S" (by decide) (by decide) (by decide)
    (by decide)

/-- Claim C10 (confirmed): for a known, non-starting-material target of
finite cost the collection phase always succeeds (its failure branch is
unreachable), and `design_route` returns its non-empty sequence, whose
last rule outputs the target. -/
theorem claim10_extraction_total (G : Designer) (name cid : String)
    (h1 : G.compound_id name = some cid) (h2 : cid ∉ G.starting_materials)
    (h3 : (best_cost G cid []).1 < INF) :
    ∃ st, collect_steps G cid [] [] [] = some st ∧ G.design_route name = some st.2 ∧
      ∃ l rxn, st.2 = l ++ [rxn] ∧ rxn.product = cid := by
  obtain ⟨st, hcol⟩ := collect_steps_success G cid [] [] [] h3
  obtain ⟨l, rxn, hsplit, hprod, -⟩ := collect_top G cid st h2 hcol
  exact ⟨st, hcol, design_route_collected G name cid h1 (by omega) st hcol,
    l, rxn, hsplit, hprod⟩

/-- Claim C10 witness: the chain target c collects successfully and its
route ends with the rule producing c. -/
theorem claim10_witness :
    ∃ st, collect_steps chainG "c" [] [] [] = some st ∧
      chainG.design_route "c" = some st.2 ∧
      ∃ l rxn, st.2 = l ++ [rxn] ∧ rxn.product = "c" :=
  claim10_extraction_total chainG "c" "c" (by decide) (by decide) (by decide)

/-- Claim C1 (amended, proved): the extracted route never has more rules
than the minimum cost of the target; deduplication of rules shared between
branches can make it strictly shorter. -/
theorem claim1_route_length_le (G : Designer) (name cid : String) (steps : List Reaction)
    (h1 : G.compound_id name = some cid) (h2 : G.design_route name = some steps) :
    steps.length ≤ (best_cost G cid []).1 := by
  unfold Designer.design_route at h2
  rw [h1] at h2
  dsimp only at h2
  by_cases hc : INF ≤ (best_cost G cid []).1
  · rw [if_pos hc] at h2
    obtain rfl := Option.some.inj h2
    simp
  · rw [if_neg hc] at h2
    cases hcol : collect_steps G cid [] [] [] with
    | none =>
      rw [hcol] at h2
      obtain rfl := Option.some.inj h2
      simp
    | some st =>
      rw [hcol] at h2
      obtain rfl := Option.some.inj h2
      obtain ⟨-, -, -, -, -, -, g7⟩ := collect_steps_main G cid [] [] [] st hcol
      simpa using g7

/-- Claim C1 witness: the chain route for c has 2 steps and cost 2. -/
theorem claim1_witness :
    ([chainR1, chainR2] : List Reaction).length ≤ (best_cost chainG "c" []).1 :=
  claim1_route_length_le chainG "c" "c" [chainR1, chainR2] (by decide) (by decide)

set_option maxRecDepth 1000000 in
set_option maxHeartbeats 16000000 in
/-- Claim C1 counterexample: 丙酸丙酯 (`ester:C3:C3`) is a known target,
not a starting material, with minimum cost 5, yet the sequence returned by
`design_route` has only 4 rules (the rule producing 丙醇 serves both the
acid branch and the alcohol branch and is emitted once), so the length of
the deduplicated sequence does not equal the computed minimum step count. -/
theorem claim1_counterexample :
    concrete.compound_id "丙酸丙酯" = some "ester:C3:C3" ∧
    "ester:C3:C3" ∉ concrete.starting_materials ∧
    (best_cost concrete "ester:C3:C3" []).1 = 5 ∧ (5 : Nat) < INF ∧
    (concrete.design_route "丙酸丙酯").map (fun l => l.length) = some 4 :=
  ⟨by decide, by decide, by decide, by decide, by decide⟩

/-- Claim C8 (confirmed): `demo_targets` ranks exactly the known compounds
that are not starting materials and have finite cost, sorted ascending by
the pair (cost, display name), returning the first `count` names; in the
two-compound scenario (one 1-step, one 2-step) the top-1 answer is the
1-step compound. -/
theorem claim8_ranking :
    (∀ (G : Designer) (count : Nat), ∃ l : List (Nat × String),
        G.demo_targets count = (l.take count).map (fun x => x.2) ∧
        l.Sorted demoLe ∧
        (∀ c n, (c, n) ∈ l ↔ ∃ cid, (cid, n) ∈ G.id_to_name ∧
          cid ∉ G.starting_materials ∧ (best_cost G cid []).1 = c ∧ c < INF)) ∧
    rankG.demo_targets 1 = ["nx"] := by
  constructor
  · intro G count
    refine ⟨List.insertionSort demoLe G.demo_candidates,
      rfl, List.sorted_insertionSort demoLe _, ?_⟩
    intro c n
    rw [(List.perm_insertionSort demoLe _).mem_iff]
    unfold Designer.demo_candidates
    rw [List.mem_filterMap]
    constructor
    · rintro ⟨p, hp, heq⟩
      by_cases hsm : p.1 ∈ G.starting_materials
      · rw [if_pos hsm] at heq
        exact absurd heq (by simp)
      · rw [if_neg hsm] at heq
        dsimp only at heq
        by_cases hc : (best_cost G p.1 []).1 < INF
        · rw [if_pos hc] at heq
          have hcn := Option.some.inj heq
          have e1 : (best_cost G p.1 []).1 = c := congrArg Prod.fst hcn
          have e2 : p.2 = n := congrArg Prod.snd hcn
          refine ⟨p.1, ?_, hsm, e1, e1 ▸ hc⟩
          have hpe : (p.1, n) = p := by rw [← e2]
          rwa [hpe]
        · rw [if_neg hc] at heq
          exact absurd heq (by simp)
    · rintro ⟨cid, hmem, hsm, hcost, hlt⟩
      refine ⟨(cid, n), hmem, ?_⟩
      rw [if_neg hsm]
      dsimp only
      rw [if_pos (by rwa [hcost]), hcost]
  · decide

end RouteDesigner
